import Mathlib

set_option maxHeartbeats 1000000

/-!
Verification of the goauld document index (go-leia derivative).

This file gives a shallow embedding, in Lean 4, of the parts of the goauld
source that the checked claims are about: the Scalar data model and its byte
encoding, the TermPath primitives, the JSON-LD value extractor recursion, the
query parts with their seek/condition semantics, the bbolt-backed collection
operations (add, get, delete, addIndex), the query planner, and the slice
semantics of query.And.  Functions are translated from the Go source; the
parts of the repository whose implementation files are absent (index.go with
the index add/delete/IsMatch logic, the key codec, the plan executors and the
typed decoders of the test suite) are modelled from the specification and are
marked as such in their doc comments.
-/

namespace Goauld

/-- Byte strings: Go `[]byte` is modelled as a list of naturals (each < 256 in
practice; the bound is irrelevant to the claims). -/
abbrev Bytes := List Nat

/-- Model of Go `bytes.Compare`: lexicographic three-way comparison. -/
def bytesCompare : Bytes → Bytes → Int
  | [], [] => 0
  | [], _ :: _ => -1
  | _ :: _, [] => 1
  | a :: as, b :: bs => if a < b then -1 else if b < a then 1 else bytesCompare as bs

/-- Spec-side byte-lexicographic order (boolean), written independently of
`bytesCompare` so that the condition claims relate two distinct formulations. -/
def lexLE : Bytes → Bytes → Bool
  | [], _ => true
  | _ :: _, [] => false
  | a :: as, b :: bs => if a < b then true else if b < a then false else lexLE as bs

/-- Model of Go `bytes.HasPrefix`: length test plus equality on the clipped key. -/
def hasPfx (s p : Bytes) : Bool :=
  decide (p.length ≤ s.length) && (s.take p.length == p)

/-- TermPath (src/unnamed/part_000): ordered list of fully qualified IRI terms. -/
structure TermPath where
  terms : List String
deriving DecidableEq

/-- TermPath.IsEmpty from the source. -/
def TermPath.isEmptyTP (tp : TermPath) : Bool := tp.terms.isEmpty

/-- TermPath.Head from the source: first term or the empty string. -/
def TermPath.headTP (tp : TermPath) : String :=
  match tp.terms with
  | [] => ""
  | t :: _ => t

/-- TermPath.Tail from the source: all but the first term, or the empty path. -/
def TermPath.tailTP (tp : TermPath) : TermPath :=
  match tp.terms with
  | [] => ⟨[]⟩
  | [_] => ⟨[]⟩
  | _ :: rest => ⟨rest⟩

/-- TermPath.Equals from the source: same terms in the same order. -/
def TermPath.equalsTP (tp other : TermPath) : Bool := tp.terms == other.terms

/-- UTF-8 byte sequence of a string; Go strings are byte strings and
`[]byte(s)` is the identity on the underlying bytes. -/
def utf8Bytes (s : String) : Bytes :=
  (s.data.flatMap String.utf8EncodeChar).map (fun b => b.toNat)

/-- Scalar (src/unnamed/part_000): a JSON-LD scalar wrapping exactly one of a
boolean, a string, or a 64-bit float.  A float64 is represented by its
IEEE-754 bit pattern (Go `math.Float64bits`), which is all the source ever
inspects. -/
inductive Scalar where
  | bool (b : Bool)
  | str (s : String)
  | num (bits : Nat)
deriving DecidableEq

/-- Big-endian 8-byte encoding of a 64-bit pattern (`binary.BigEndian.PutUint64`). -/
def beBytes8 (bits : Nat) : Bytes :=
  [bits / 2 ^ 56 % 256, bits / 2 ^ 48 % 256, bits / 2 ^ 40 % 256, bits / 2 ^ 32 % 256,
   bits / 2 ^ 24 % 256, bits / 2 ^ 16 % 256, bits / 2 ^ 8 % 256, bits % 256]

/-- Scalar.Bytes from the source: one byte for booleans, the raw bytes for
strings, the big-endian IEEE-754 bit pattern for doubles. -/
def Scalar.bytes : Scalar → Bytes
  | .bool true => [1]
  | .bool false => [0]
  | .str s => utf8Bytes s
  | .num bits => beBytes8 bits

/-- The error values surfaced by the engine.  `jsonError` carries an error
produced by Go's encoding/json package (identified by its message); such an
error is a distinct value from the package-level sentinel `ErrInvalidJSON`,
which is what the constructor separation captures.  `expandError` likewise
wraps an error of the external JSON-LD processor. -/
inductive GoErr where
  | invalidJSON
  | invalidValue
  | noQuery
  | noIndex
  | incompatibleValue
  | jsonError (msg : String)
  | expandError (msg : String)
  | canceled
  | deadlineExceeded
  | walkerError (msg : String)
deriving DecidableEq

/-- Go `interface{}` values as produced by `json.Unmarshal` and the JSON-LD
expansion: booleans, numbers (by bit pattern), strings, null, slices, maps. -/
inductive Json where
  | bool (b : Bool)
  | num (bits : Nat)
  | str (s : String)
  | null
  | arr (elems : List Json)
  | obj (fields : List (String × Json))

/-- Kinds accepted by ScalarParse (bool, string, float64 in the source switch). -/
def isScalarKind : Json → Bool
  | .bool _ => true
  | .str _ => true
  | .num _ => true
  | _ => false

/-- ScalarParse (src/unnamed/part_000): wraps booleans, strings and float64
values; every other kind yields ErrInvalidValue. -/
def ScalarParse : Json → Except GoErr Scalar
  | .bool b => .ok (.bool b)
  | .str s => .ok (.str s)
  | .num bits => .ok (.num bits)
  | _ => .error .invalidValue

/-- ScalarMustParse (src/unnamed/part_000): like ScalarParse but panics on
unsupported values; the Go panic is modelled as error propagation. -/
def ScalarMustParse (v : Json) : Except GoErr Scalar := ScalarParse v

/-- Modelled from the spec: the typed decoder for booleans used by the
round-trip property (a boolean is reconstructed from a non-zero first byte;
the test suite compares the encoded byte directly). -/
def boolDecode : Bytes → Bool
  | [] => false
  | b :: _ => b != 0

/-- Model of `binary.BigEndian.Uint64` as used by the test suite's double
decoder: fold the first 8 bytes big-endian into a 64-bit pattern. -/
def beUint64 (bs : Bytes) : Nat :=
  (bs.take 8).foldl (fun acc b => acc * 256 + b) 0

theorem bytesCompare_eq_zero_iff (a b : Bytes) : bytesCompare a b = 0 ↔ a = b := by
  induction a generalizing b with
  | nil => cases b <;> simp [bytesCompare]
  | cons x xs ih =>
    cases b with
    | nil => simp [bytesCompare]
    | cons y ys =>
      by_cases hxy : x < y
      · simp [bytesCompare, hxy]
        omega
      · by_cases hyx : y < x
        · simp [bytesCompare, hxy, hyx]
          omega
        · have hxyeq : x = y := by omega
          simp [bytesCompare, hxy, hyx, hxyeq, ih]

theorem bytesCompare_neg (a b : Bytes) : bytesCompare a b = -bytesCompare b a := by
  induction a generalizing b with
  | nil => cases b <;> simp [bytesCompare]
  | cons x xs ih =>
    cases b with
    | nil => simp [bytesCompare]
    | cons y ys =>
      by_cases hxy : x < y
      · have hyx : ¬ y < x := by omega
        simp [bytesCompare, hxy, hyx]
      · by_cases hyx : y < x
        · simp [bytesCompare, hxy, hyx]
        · simp [bytesCompare, hxy, hyx, ih]

theorem lexLE_iff_compare (a b : Bytes) : lexLE a b = true ↔ bytesCompare a b ≤ 0 := by
  induction a generalizing b with
  | nil => cases b <;> simp [lexLE, bytesCompare]
  | cons x xs ih =>
    cases b with
    | nil => simp [lexLE, bytesCompare]
    | cons y ys =>
      by_cases hxy : x < y
      · simp [lexLE, bytesCompare, hxy]
      · by_cases hyx : y < x
        · simp [lexLE, bytesCompare, hxy, hyx]
        · simp [lexLE, bytesCompare, hxy, hyx, ih]

theorem hasPfx_iff (s p : Bytes) : hasPfx s p = true ↔ p <+: s := by
  simp only [hasPfx, Bool.and_eq_true, decide_eq_true_eq, beq_iff_eq]
  constructor
  · rintro ⟨h1, h2⟩
    rw [List.prefix_iff_eq_take]
    exact h2.symm
  · intro h
    exact ⟨h.length_le, (List.prefix_iff_eq_take.mp h).symm⟩

/-- C6: ScalarParse accepts exactly booleans, strings and 64-bit floats, and
returns ErrInvalidValue for every other input kind; the byte encoding of a
parsed scalar is one byte 0x00/0x01 for booleans, the UTF-8 bytes with no
terminator for strings, and the 8 big-endian bytes of the IEEE-754 bit
pattern for doubles. -/
theorem scalarParse_kinds_and_encoding :
    (∀ v : Json, (∃ s, ScalarParse v = .ok s) ↔ isScalarKind v = true)
    ∧ (∀ v : Json, isScalarKind v = false → ScalarParse v = .error .invalidValue)
    ∧ (∀ b : Bool, ScalarParse (.bool b) = .ok (.bool b)
        ∧ (Scalar.bool b).bytes = [if b then 1 else 0])
    ∧ (∀ s : String, ScalarParse (.str s) = .ok (.str s)
        ∧ (Scalar.str s).bytes = utf8Bytes s)
    ∧ (∀ bits : Nat, ScalarParse (.num bits) = .ok (.num bits)
        ∧ (Scalar.num bits).bytes = beBytes8 bits
        ∧ (beBytes8 bits).length = 8) := by
  refine ⟨?_, ?_, ?_, ?_, ?_⟩
  · intro v
    cases v <;> simp [ScalarParse, isScalarKind]
  · intro v hv
    cases v <;> simp_all [ScalarParse, isScalarKind]
  · intro b
    cases b <;> simp [ScalarParse, Scalar.bytes]
  · intro s
    exact ⟨rfl, rfl⟩
  · intro bits
    exact ⟨rfl, rfl, rfl⟩

/-- C7: decoding the encoded bytes of a parsed boolean or double under the
typed decoder recovers the value, and the bytes of a string scalar are its
UTF-8 encoding. -/
theorem scalar_bytes_roundtrip (b : Bool) (s : String) (bits : Nat)
    (h : bits < 2 ^ 64) :
    boolDecode (Scalar.bool b).bytes = b
    ∧ beUint64 (Scalar.num bits).bytes = bits
    ∧ (Scalar.str s).bytes = utf8Bytes s := by
  refine ⟨?_, ?_, rfl⟩
  · cases b <;> rfl
  · show beUint64 (beBytes8 bits) = bits
    simp only [beUint64, beBytes8, List.take, List.foldl]
    omega

/-- Witness for C7 at concrete inputs. -/
theorem scalar_bytes_roundtrip_witness :
    boolDecode (Scalar.bool true).bytes = true
    ∧ beUint64 (Scalar.num 4629700416936869888).bytes = 4629700416936869888
    ∧ (Scalar.str "Jane Doe").bytes = utf8Bytes "Jane Doe" :=
  scalar_bytes_roundtrip true "Jane Doe" 4629700416936869888 (by norm_num)

/-- Transform (src/transform.go): a pure function from scalar to scalar.  A Go
nil transform is an absent `Option`. -/
abbrev Transform := Scalar → Scalar

/-- The optional transform applied to a query scalar; an absent transform
leaves the scalar untouched (both branches appear verbatim in the source's
Condition implementations). -/
def applyTransform (t : Option Transform) (s : Scalar) : Scalar :=
  match t with
  | some f => f s
  | none => s

/-- eqPart (src/search.go): query part for an exact match. -/
structure eqPart where
  termPath : TermPath
  value : Scalar

/-- eqPart.Seek from the source. -/
def eqPart.Seek (e : eqPart) : Scalar := e.value

/-- eqPart.Condition from the source: the key bytes must equal the (optionally
transformed) query value's bytes. -/
def eqPart.Condition (e : eqPart) (key : Bytes) (transform : Option Transform) : Bool :=
  match transform with
  | some f => bytesCompare key (f e.value).bytes == 0
  | none => bytesCompare key e.value.bytes == 0

/-- rangePart (src/search.go): query part for an inclusive range. -/
structure rangePart where
  termPath : TermPath
  beginV : Scalar
  endV : Scalar

/-- rangePart.Seek from the source: the begin scalar. -/
def rangePart.Seek (r : rangePart) : Scalar := r.beginV

/-- rangePart.Condition from the source: reject keys before the transformed
begin, accept keys up to and including the transformed end. -/
def rangePart.Condition (r : rangePart) (key : Bytes) (transform : Option Transform) : Bool :=
  let bT := match transform with
    | some f => f r.beginV
    | none => r.beginV
  let eT := match transform with
    | some f => f r.endV
    | none => r.endV
  if bytesCompare key bT.bytes < 0 then false
  else decide (bytesCompare key eT.bytes ≤ 0)

/-- prefixPart (src/search.go): query part for a partial match on the front of
a value. -/
structure pfxPart where
  termPath : TermPath
  value : Scalar

/-- prefixPart.Seek from the source. -/
def pfxPart.Seek (p : pfxPart) : Scalar := p.value

/-- prefixPart.Condition from the source: the key must begin with the
(optionally transformed) query value's bytes. -/
def pfxPart.Condition (p : pfxPart) (key : Bytes) (transform : Option Transform) : Bool :=
  let transformed := match transform with
    | some f => f p.value
    | none => p.value
  hasPfx key transformed.bytes

/-- C3: each query-part variant's Condition agrees with the spec table (Eq:
key bytes equal transform(value).bytes(); Range: inclusive byte-lexicographic
bounds; Prefix: key begins with transform(value).bytes()); the transform is
applied only to the query scalar, never to the stored key, an absent transform
uses the untransformed scalar, and Seek() is value for Eq and Prefix and begin
for Range. -/
theorem queryPart_condition_seek (key : Bytes) (t : Option Transform)
    (tp : TermPath) (v bg en : Scalar) :
    ((eqPart.mk tp v).Condition key t = (key == (applyTransform t v).bytes))
    ∧ ((rangePart.mk tp bg en).Condition key t
        = (lexLE (applyTransform t bg).bytes key && lexLE key (applyTransform t en).bytes))
    ∧ ((pfxPart.mk tp v).Condition key t = decide ((applyTransform t v).bytes <+: key))
    ∧ (eqPart.mk tp v).Seek = v
    ∧ (rangePart.mk tp bg en).Seek = bg
    ∧ (pfxPart.mk tp v).Seek = v := by
  refine ⟨?_, ?_, ?_, rfl, rfl, rfl⟩
  · rw [Bool.eq_iff_iff]
    cases t <;>
      simp [eqPart.Condition, applyTransform, beq_iff_eq, bytesCompare_eq_zero_iff]
  · rw [Bool.eq_iff_iff]
    have hb := bytesCompare_neg key (applyTransform t bg).bytes
    cases t with
    | none =>
      simp only [rangePart.Condition, applyTransform, Bool.and_eq_true,
        lexLE_iff_compare]
      constructor
      · intro h
        by_cases hlt : bytesCompare key (Scalar.bytes bg) < 0
        · simp [hlt] at h
        · simp only [hlt, if_false, decide_eq_true_eq] at h
          simp only [applyTransform] at hb
          omega
      · rintro ⟨h1, h2⟩
        simp only [applyTransform] at hb
        have hlt : ¬ bytesCompare key (Scalar.bytes bg) < 0 := by omega
        simp [hlt, h2]
    | some f =>
      simp only [rangePart.Condition, applyTransform, Bool.and_eq_true,
        lexLE_iff_compare]
      constructor
      · intro h
        by_cases hlt : bytesCompare key (Scalar.bytes (f bg)) < 0
        · simp [hlt] at h
        · simp only [hlt, if_false, decide_eq_true_eq] at h
          simp only [applyTransform] at hb
          omega
      · rintro ⟨h1, h2⟩
        simp only [applyTransform] at hb
        have hlt : ¬ bytesCompare key (Scalar.bytes (f bg)) < 0 := by omega
        simp [hlt, h2]
  · rw [Bool.eq_iff_iff]
    cases t <;>
      simp [pfxPart.Condition, applyTransform, hasPfx_iff]

/-- Go map lookup on the fields of an expanded JSON object (expansion output
maps have unique keys, so an association list is an exact model). -/
def fieldsGet : List (String × Json) → String → Option Json
  | [], _ => none
  | (k, v) :: rest, key => if k = key then some v else fieldsGet rest key

theorem fieldsGet_sizeOf {m : List (String × Json)} {key : String} {v : Json}
    (h : fieldsGet m key = some v) : sizeOf v < sizeOf m := by
  induction m with
  | nil => simp [fieldsGet] at h
  | cons p rest ih =>
    obtain ⟨k, w⟩ := p
    by_cases hk : k = key
    · simp only [fieldsGet, hk, if_pos, Option.some.injEq] at h
      subst h
      simp only [List.cons.sizeOf_spec, Prod.mk.sizeOf_spec]
      omega
    · simp only [fieldsGet, hk, if_neg, not_false_iff] at h
      have := ih h
      simp only [List.cons.sizeOf_spec, Prod.mk.sizeOf_spec]
      omega

/-- The empty-path block of valuesFromMapAtPath (src/search.go): the four
special keys @value, @id, @list, @set tried in source order; @list and @set
are type-asserted to slices (a failed assertion panics in Go; the panic is
modelled as error propagation, as for ScalarMustParse).  Returns none when
none of the four keys is present, in which case the Go code falls through. -/
def emptyPathHit (m : List (String × Json)) : Option (Except GoErr (List Scalar)) :=
  match fieldsGet m "@value" with
  | some value =>
    some (match ScalarMustParse value with
      | .ok s => .ok [s]
      | .error e => .error e)
  | none =>
    match fieldsGet m "@id" with
    | some idv =>
      some (match ScalarMustParse idv with
        | .ok s => .ok [s]
        | .error e => .error e)
    | none =>
      match fieldsGet m "@list" with
      | some (.arr castList) => some (castList.mapM ScalarMustParse)
      | some _ => some (.error .invalidValue)
      | none =>
        match fieldsGet m "@set" with
        | some (.arr castSet) => some (castSet.mapM ScalarMustParse)
        | some _ => some (.error .invalidValue)
        | none => none

/-- Sequencing of two extraction results: append the scalars of the second to
those of the first, a Go panic in either part propagating (the first taking
precedence, as in the source's evaluation order). -/
def exSeq (a b : Except GoErr (List Scalar)) : Except GoErr (List Scalar) :=
  match a with
  | .error e => .error e
  | .ok hd =>
    match b with
    | .error e => .error e
    | .ok tl => .ok (hd ++ tl)

mutual

/-- valuesFromSliceAtPath (src/search.go): concatenate the recursion over the
elements of an expanded slice; elements that are neither slices nor maps
contribute nothing. -/
def valuesFromSliceAtPath (l : List Json) (termPath : TermPath) :
    Except GoErr (List Scalar) :=
  match l with
  | [] => .ok []
  | x :: xs =>
    exSeq
      (match x with
        | .arr ys => valuesFromSliceAtPath ys termPath
        | .obj m => valuesFromMapAtPath m termPath
        | _ => .ok [])
      (valuesFromSliceAtPath xs termPath)
termination_by sizeOf l
decreasing_by
  · simp only [List.cons.sizeOf_spec, Json.arr.sizeOf_spec]
    omega
  · simp only [List.cons.sizeOf_spec, Json.obj.sizeOf_spec]
    omega
  · simp only [List.cons.sizeOf_spec]
    omega

/-- valuesFromMapAtPath (src/search.go): on an empty path the four special
keys are tried (emptyPathHit); the source block falls through when none is
present, so the empty and the non-empty case both continue with the
termPath.Head() lookup (the head of an empty path being the empty string),
which recurses only into slice values and otherwise yields nil. -/
def valuesFromMapAtPath (m : List (String × Json)) (termPath : TermPath) :
    Except GoErr (List Scalar) :=
  match (if termPath.isEmptyTP then emptyPathHit m else none) with
  | some r => r
  | none =>
    match hfg : fieldsGet m termPath.headTP with
    | some (.arr next) => valuesFromSliceAtPath next termPath.tailTP
    | some _ => .ok []
    | none => .ok []
termination_by sizeOf m
decreasing_by
  have h := fieldsGet_sizeOf hfg
  simp only [Json.arr.sizeOf_spec] at h
  omega

end

mutual

/-- Modelled from the spec (section 4.2), list case: at a list node recurse
into each element and concatenate; a scalar where a list was expected yields
empty.  The fall flag selects the variant: false follows the spec's words
exactly; true is the amended recursion that additionally performs, at a map
node with an exhausted path and none of the four special keys, the
fall-through lookup of the empty-string key that the source code has. -/
def specValuesList (fall : Bool) (l : List Json) (tp : TermPath) :
    Except GoErr (List Scalar) :=
  match l with
  | [] => .ok []
  | x :: xs => exSeq (specValuesNode fall x tp) (specValuesList fall xs tp)
termination_by sizeOf l
decreasing_by
  · simp only [List.cons.sizeOf_spec]
    omega
  · simp only [List.cons.sizeOf_spec]
    omega

/-- Modelled from the spec (section 4.2), node case: a map node with an empty
remaining path returns the scalars of one of the four special keys, else
(spec words) nothing, or (amended, fall = true) the source's empty-string-key
fall-through; a map node with a remaining path looks up the head key and
recurses into it only if it is a list; any other node yields empty. -/
def specValuesNode (fall : Bool) (v : Json) (tp : TermPath) :
    Except GoErr (List Scalar) :=
  match v with
  | .arr elems => specValuesList fall elems tp
  | .obj m =>
    if tp.isEmptyTP then
      match emptyPathHit m with
      | some r => r
      | none =>
        if fall then
          match hfg : fieldsGet m tp.headTP with
          | some (.arr next) => specValuesList fall next tp.tailTP
          | some _ => .ok []
          | none => .ok []
        else .ok []
    else
      match hfg : fieldsGet m tp.headTP with
      | some (.arr next) => specValuesList fall next tp.tailTP
      | some _ => .ok []
      | none => .ok []
  | _ => .ok []
termination_by sizeOf v
decreasing_by
  · simp only [Json.arr.sizeOf_spec]
    omega
  · have h := fieldsGet_sizeOf hfg
    simp only [Json.arr.sizeOf_spec, Json.obj.sizeOf_spec] at h ⊢
    omega
  · have h := fieldsGet_sizeOf hfg
    simp only [Json.arr.sizeOf_spec, Json.obj.sizeOf_spec] at h ⊢
    omega

end

theorem extract_eq_amended_aux (n : Nat) :
    (∀ l : List Json, ∀ tp, sizeOf l ≤ n →
        valuesFromSliceAtPath l tp = specValuesList true l tp)
    ∧ (∀ m : List (String × Json), ∀ tp, sizeOf m ≤ n →
        valuesFromMapAtPath m tp = specValuesNode true (.obj m) tp) := by
  induction n using Nat.strong_induction_on with
  | _ n ih =>
    constructor
    · intro l tp hl
      cases l with
      | nil => rw [valuesFromSliceAtPath.eq_def, specValuesList.eq_def]
      | cons x xs =>
        have hxsz : sizeOf xs < n := by
          simp only [List.cons.sizeOf_spec] at hl
          omega
        have hxs := (ih (sizeOf xs) hxsz).1 xs tp le_rfl
        cases x with
        | arr ys =>
          have hsz : sizeOf ys < n := by
            simp only [List.cons.sizeOf_spec, Json.arr.sizeOf_spec] at hl
            omega
          have hys := (ih (sizeOf ys) hsz).1 ys tp le_rfl
          rw [valuesFromSliceAtPath.eq_def, specValuesList.eq_def]
          simp only [specValuesNode.eq_def]
          rw [hys, hxs]
        | obj m =>
          have hsz : sizeOf m < n := by
            simp only [List.cons.sizeOf_spec, Json.obj.sizeOf_spec] at hl
            omega
          have hm := (ih (sizeOf m) hsz).2 m tp le_rfl
          rw [valuesFromSliceAtPath.eq_def, specValuesList.eq_def]
          simp only []
          rw [hm, hxs]
        | bool b =>
          rw [valuesFromSliceAtPath.eq_def, specValuesList.eq_def]
          simp only [specValuesNode.eq_def]
          rw [hxs]
        | num bits =>
          rw [valuesFromSliceAtPath.eq_def, specValuesList.eq_def]
          simp only [specValuesNode.eq_def]
          rw [hxs]
        | str s =>
          rw [valuesFromSliceAtPath.eq_def, specValuesList.eq_def]
          simp only [specValuesNode.eq_def]
          rw [hxs]
        | null =>
          rw [valuesFromSliceAtPath.eq_def, specValuesList.eq_def]
          simp only [specValuesNode.eq_def]
          rw [hxs]
    · intro m tp hm
      rw [valuesFromMapAtPath.eq_def, specValuesNode.eq_def]
      cases he : tp.isEmptyTP with
      | false =>
        simp only [Bool.false_eq_true, if_neg, not_false_iff]
        cases hfg : fieldsGet m tp.headTP with
        | none => rfl
        | some v =>
          cases v with
          | arr next =>
            have hs := fieldsGet_sizeOf hfg
            simp only [Json.arr.sizeOf_spec] at hs
            exact (ih (sizeOf next) (by omega)).1 next tp.tailTP le_rfl
          | bool b => rfl
          | num bits => rfl
          | str s => rfl
          | null => rfl
          | obj o => rfl
      | true =>
        simp only [if_pos]
        cases hep : emptyPathHit m with
        | some r => rfl
        | none =>
          simp only
          cases hfg : fieldsGet m tp.headTP with
          | none => rfl
          | some v =>
            cases v with
            | arr next =>
              have hs := fieldsGet_sizeOf hfg
              simp only [Json.arr.sizeOf_spec] at hs
              exact (ih (sizeOf next) (by omega)).1 next tp.tailTP le_rfl
            | bool b => rfl
            | num bits => rfl
            | str s => rfl
            | null => rfl
            | obj o => rfl

/-- The source recursion agrees with the amended spec recursion (fall-through
variant) on every expanded node list and term path. -/
theorem valuesFromSliceAtPath_eq_amended (l : List Json) (tp : TermPath) :
    valuesFromSliceAtPath l tp = specValuesList true l tp :=
  (extract_eq_amended_aux (sizeOf l)).1 l tp le_rfl

/-- collection.ValuesAtPath (src/search.go): an empty term path yields no
values before any parsing; otherwise the document is unmarshalled (a failure
returns the json package's own error value) and expanded by the JSON-LD
processor (whose errors propagate), and the recursion runs on the expanded
node list.  The two collaborators are explicit parameters standing for
json.Unmarshal and the collection's documentProcessor. -/
def ValuesAtPath (unmarshal : Bytes → Except String Json)
    (expand : Json → Except String (List Json))
    (document : Bytes) (termPath : TermPath) : Except GoErr (List Scalar) :=
  if termPath.terms = [] then .ok []
  else
    match unmarshal document with
    | .error e => .error (.jsonError e)
    | .ok input =>
      match expand input with
      | .error e => .error (.expandError e)
      | .ok expanded => valuesFromSliceAtPath expanded termPath

/-- C2 counterexample: with a processor whose expansion is a single map node
carrying a scalar @value, ValuesAtPath on the empty term path returns no
values at all, while the spec's recursion over the expanded tree yields the
node's own scalar value. -/
theorem valuesAtPath_empty_path_cex :
    ValuesAtPath (fun _ => .ok .null)
        (fun _ => .ok [Json.obj [("@value", Json.str "x")]]) [123] ⟨[]⟩ = .ok []
    ∧ specValuesList false [Json.obj [("@value", Json.str "x")]] ⟨[]⟩
        = .ok [Scalar.str "x"]
    ∧ ((Except.ok [] : Except GoErr (List Scalar)) ≠ .ok [Scalar.str "x"]) := by
  refine ⟨rfl, ?_, by simp⟩
  have h1 : specValuesList false [] ⟨[]⟩ = .ok [] := by
    rw [specValuesList.eq_def]
  have h2 : specValuesNode false (Json.obj [("@value", Json.str "x")]) ⟨[]⟩
      = .ok [Scalar.str "x"] := by
    rw [specValuesNode.eq_def]
    simp [TermPath.isEmptyTP, emptyPathHit, fieldsGet, ScalarMustParse, ScalarParse]
  rw [specValuesList.eq_def]
  simp [h1, h2, exSeq]

/-- C2 amended: ValuesAtPath returns the empty list for an empty term path
without examining the document; for a non-empty path it unmarshals and
expands the document (propagating their errors) and returns exactly the
scalars of the spec's recursion amended in one point: at a map node whose
remaining path is empty and which has none of @value, @id, @list, @set, the
code falls through and looks up the empty-string key, recursing into it if it
is a list, instead of returning empty. -/
theorem valuesAtPath_eq_amended_recursion (um : Bytes → Except String Json)
    (ex : Json → Except String (List Json)) (doc : Bytes) (tp : TermPath) :
    ValuesAtPath um ex doc tp =
      if tp.terms = [] then .ok []
      else
        match um doc with
        | .error e => .error (.jsonError e)
        | .ok input =>
          match ex input with
          | .error e => .error (.expandError e)
          | .ok expanded => specValuesList true expanded tp := by
  unfold ValuesAtPath
  by_cases h : tp.terms = []
  · simp [h]
  · simp only [h, if_neg, not_false_iff]
    cases um doc with
    | error e => rfl
    | ok input =>
      simp only []
      cases ex input with
      | error e => rfl
      | ok expanded =>
        simp only []
        exact valuesFromSliceAtPath_eq_amended expanded tp

/-- C8: ValuesAtPath on an unparseable document and a non-empty term path
returns the error of the json package itself, which is a different value from
the declared ErrInvalidJSON sentinel (the sentinel is never returned anywhere
in the source); expansion errors of the JSON-LD processor are propagated. -/
theorem valuesAtPath_error_paths :
    ValuesAtPath (fun _ => .error "unexpected end of JSON input") (fun _ => .ok [])
        [123] ⟨["http://schema.org/name"]⟩
      = .error (.jsonError "unexpected end of JSON input")
    ∧ (Except.error (GoErr.jsonError "unexpected end of JSON input")
        ≠ (Except.error GoErr.invalidJSON : Except GoErr (List Scalar)))
    ∧ ValuesAtPath (fun _ => .ok .null) (fun _ => .error "expansion failed")
        [123] ⟨["http://schema.org/name"]⟩ = .error (.expandError "expansion failed") := by
  refine ⟨rfl, by simp, rfl⟩

/-- A bbolt entry: a plain value or a nested bucket.  A bucket is a list of
entries with unique byte-string keys; the claims do not depend on cursor
order, so an association list models it. -/
inductive BItem where
  | val (v : Bytes)
  | bkt (entries : List (Bytes × BItem))

/-- The contents of one bucket (or of the transaction's root). -/
abbrev Entries := List (Bytes × BItem)

/-- Bucket key lookup (bbolt Get / Bucket by key). -/
def entGet : Entries → Bytes → Option BItem
  | [], _ => none
  | (k, it) :: rest, key => if k = key then some it else entGet rest key

/-- Bucket key store (bbolt Put / bucket creation): replace or append. -/
def entSet : Entries → Bytes → BItem → Entries
  | [], key, it => [(key, it)]
  | (k, old) :: rest, key, it =>
    if k = key then (k, it) :: rest else (k, old) :: entSet rest key it

/-- Bucket key removal (bbolt Delete / DeleteBucket).  Keys are unique in a
bbolt bucket; removing every occurrence keeps the model total on lists that
happen to repeat a key. -/
def entDel : Entries → Bytes → Entries
  | [], _ => []
  | (k, it) :: rest, key => if k = key then entDel rest key else (k, it) :: entDel rest key

/-- The sub-bucket at a key, if the entry is a bucket (bbolt Bucket returns
nil for plain values and absent keys). -/
def getBucket (es : Entries) (key : Bytes) : Option Entries :=
  match entGet es key with
  | some (.bkt b) => some b
  | _ => none

/-- bbolt CreateBucketIfNotExists: the updated parent and the bucket's
contents; a plain value under the key is ErrIncompatibleValue. -/
def ensureBucket (es : Entries) (key : Bytes) : Except GoErr (Entries × Entries) :=
  match entGet es key with
  | some (.bkt b) => .ok (es, b)
  | some (.val _) => .error .incompatibleValue
  | none => .ok (entSet es key (.bkt []), [])

theorem entGet_entSet_same (es : Entries) (k : Bytes) (it : BItem) :
    entGet (entSet es k it) k = some it := by
  induction es with
  | nil => simp [entSet, entGet]
  | cons p rest ih =>
    obtain ⟨k2, old⟩ := p
    by_cases hk : k2 = k
    · simp [entSet, entGet, hk]
    · simp [entSet, entGet, hk, ih]

theorem entGet_entSet_other (es : Entries) (k k2 : Bytes) (it : BItem) (h : k2 ≠ k) :
    entGet (entSet es k it) k2 = entGet es k2 := by
  have h2 : ¬ k = k2 := fun hh => h hh.symm
  induction es with
  | nil => simp [entSet, entGet, h2]
  | cons p rest ih =>
    obtain ⟨k3, old⟩ := p
    by_cases hk : k3 = k
    · subst hk
      simp [entSet, entGet, h2]
    · by_cases hk2 : k3 = k2
      · subst hk2
        simp [entSet, entGet, hk]
      · simp [entSet, entGet, hk, hk2, ih]

theorem entGet_entDel_same (es : Entries) (k : Bytes) :
    entGet (entDel es k) k = none := by
  induction es with
  | nil => simp [entDel, entGet]
  | cons p rest ih =>
    obtain ⟨k2, it⟩ := p
    by_cases hk : k2 = k
    · simp [entDel, hk, ih]
    · simp [entDel, entGet, hk, ih]

theorem entGet_entDel_other (es : Entries) (k k2 : Bytes) (h : k2 ≠ k) :
    entGet (entDel es k) k2 = entGet es k2 := by
  have h2 : ¬ k = k2 := fun hh => h hh.symm
  induction es with
  | nil => simp [entDel]
  | cons p rest ih =>
    obtain ⟨k3, it⟩ := p
    by_cases hk : k3 = k
    · subst hk
      simp [entDel, entGet, h2, ih]
    · by_cases hk2 : k3 = k2
      · subst hk2
        simp [entDel, entGet, hk, ih]
      · simp [entDel, entGet, hk, hk2, ih]

/-- fieldIndexer (src/index_part.go): a term path with optional transformer
and tokenizer. -/
structure FieldIndexerM where
  termPath : TermPath
  transformer : Option Transform
  tokenizer : Option (String → List String)

/-- fieldIndexer.Tokenize (src/index_part.go): without a tokenizer, or on a
non-string scalar, the scalar alone; otherwise every token re-parsed as a
scalar (tokens are strings, so the re-parse always succeeds). -/
def FieldIndexerM.TokenizeM (j : FieldIndexerM) (scalar : Scalar) : List Scalar :=
  match j.tokenizer with
  | none => [scalar]
  | some tok =>
    match scalar with
    | .str s => (tok s).map (fun t => Scalar.str t)
    | _ => [scalar]

/-- fieldIndexer.Transform (src/index_part.go): apply the transformer when
set. -/
def FieldIndexerM.TransformM (j : FieldIndexerM) (value : Scalar) : Scalar :=
  match j.transformer with
  | none => value
  | some f => f value

/-- index: name and ordered parts, per NewIndex in src/search.go (the index
implementation file is absent from the sources; its operations below are
modelled from the spec). -/
structure IndexM where
  name : String
  indexParts : List FieldIndexerM

/-- Modelled from the spec: the index's bucket name is derived from its name
and unique within a collection (the byte string of the name). -/
def IndexM.bucketName (i : IndexM) : Bytes := utf8Bytes i.name

/-- The document bucket name (src/search.go documentBucketByteRef). -/
def docBucketKey : Bytes := utf8Bytes "_documents"

/-- Modelled from the spec (4.3): the keys of one FieldIndexer for a
document: extract the scalars at the term path, tokenize each, transform each
token, and flatten. -/
def keysFor (um : Bytes → Except String Json) (ex : Json → Except String (List Json))
    (fi : FieldIndexerM) (doc : Bytes) : Except GoErr (List Scalar) :=
  match ValuesAtPath um ex doc fi.termPath with
  | .error e => .error e
  | .ok values => .ok (values.map (fun v => (fi.TokenizeM v).map fi.TransformM)).flatten

/-- Modelled from the spec (4.4): pack a tuple of byte strings into one
compound key with the 0x10 delimiter (the source has no escaping). -/
def packKey (parts : List Bytes) : Bytes :=
  List.flatten (List.intersperse ([16] : Bytes) parts)

/-- Cross product of the parts' key lists (spec 4.5): one compound key per
combination of the parts' tokens. -/
def crossProduct : List (List Bytes) → List (List Bytes)
  | [] => [[]]
  | ks :: rest => (ks.map (fun k => (crossProduct rest).map (fun tl => k :: tl))).flatten

/-- Modelled from the spec (4.5): each part's byte-encoded key list, a part
with no value at its term path contributing a single empty-byte part. -/
def partKeyLists (um : Bytes → Except String Json) (ex : Json → Except String (List Json))
    (parts : List FieldIndexerM) (doc : Bytes) : Except GoErr (List (List Bytes)) :=
  match parts with
  | [] => .ok []
  | fi :: rest =>
    match keysFor um ex fi doc with
    | .error e => .error e
    | .ok ks =>
      match partKeyLists um ex rest doc with
      | .error e => .error e
      | .ok tl => .ok ((if ks.isEmpty then [([] : Bytes)] else ks.map Scalar.bytes) :: tl)

/-- Modelled from the spec (4.5): the composed keys of a document for an
index: cross product of the parts' key lists, packed. -/
def IndexM.composedKeys (um : Bytes → Except String Json)
    (ex : Json → Except String (List Json)) (idx : IndexM) (doc : Bytes) :
    Except GoErr (List Bytes) :=
  match partKeyLists um ex idx.indexParts doc with
  | .error e => .error e
  | .ok pk => .ok ((crossProduct pk).map packKey)

/-- Modelled from the spec (4.5): within the index bucket, open or create the
nested bucket at one composed key and put the reference with an empty value. -/
def addRefAtKey (b : Entries) (key ref : Bytes) : Except GoErr Entries :=
  match entGet b key with
  | some (.bkt rb) => .ok (entSet b key (.bkt (entSet rb ref (.val []))))
  | some (.val _) => .error .incompatibleValue
  | none => .ok (entSet b key (.bkt [(ref, .val [])]))

def addRefAtKeys (b : Entries) (keys : List Bytes) (ref : Bytes) : Except GoErr Entries :=
  match keys with
  | [] => .ok b
  | k :: rest =>
    match addRefAtKey b k ref with
    | .error e => .error e
    | .ok b2 => addRefAtKeys b2 rest ref

/-- Modelled from the spec (4.5): index Add: compute the composed keys of the
document and register the reference under each of them inside the index's own
bucket, opened or created in the collection bucket. -/
def IndexM.Add (um : Bytes → Except String Json) (ex : Json → Except String (List Json))
    (idx : IndexM) (colB : Entries) (ref doc : Bytes) : Except GoErr Entries :=
  match idx.composedKeys um ex doc with
  | .error e => .error e
  | .ok keys =>
    match entGet colB idx.bucketName with
    | some (.val _) => .error .incompatibleValue
    | some (.bkt ib) =>
      match addRefAtKeys ib keys ref with
      | .error e => .error e
      | .ok ib2 => .ok (entSet colB idx.bucketName (.bkt ib2))
    | none =>
      match addRefAtKeys [] keys ref with
      | .error e => .error e
      | .ok ib2 => .ok (entSet colB idx.bucketName (.bkt ib2))

/-- Modelled from the spec (4.5): remove the reference from the nested bucket
at one composed key, deleting the nested bucket when it becomes empty;
missing entries are silently ignored. -/
def delRefAtKey (b : Entries) (key ref : Bytes) : Entries :=
  match entGet b key with
  | some (.bkt rb) =>
    if (entDel rb ref).isEmpty then entDel b key
    else entSet b key (.bkt (entDel rb ref))
  | _ => b

def delRefAtKeys (b : Entries) (keys : List Bytes) (ref : Bytes) : Entries :=
  match keys with
  | [] => b
  | k :: rest => delRefAtKeys (delRefAtKey b k ref) rest ref

/-- Modelled from the spec (4.5): index Delete, symmetric to Add; a missing
index bucket is silently ignored. -/
def IndexM.Delete (um : Bytes → Except String Json) (ex : Json → Except String (List Json))
    (idx : IndexM) (colB : Entries) (ref doc : Bytes) : Except GoErr Entries :=
  match idx.composedKeys um ex doc with
  | .error e => .error e
  | .ok keys =>
    match entGet colB idx.bucketName with
    | some (.bkt ib) => .ok (entSet colB idx.bucketName (.bkt (delRefAtKeys ib keys ref)))
    | _ => .ok colB

/-- collection (src/search.go): name, index list, reference function, and the
two processor collaborators (json.Unmarshal and the JSON-LD expansion). -/
structure CollectionM where
  name : Bytes
  indexList : List IndexM
  refMake : Bytes → Bytes
  um : Bytes → Except String Json
  ex : Json → Except String (List Json)

/-- The index-Add loop of collection.add (src/search.go), threading the
collection bucket through each index in order. -/
def indexAddAll (um : Bytes → Except String Json) (ex : Json → Except String (List Json))
    (idxs : List IndexM) (colB : Entries) (ref doc : Bytes) : Except GoErr Entries :=
  match idxs with
  | [] => .ok colB
  | i :: rest =>
    match i.Add um ex colB ref doc with
    | .error e => .error e
    | .ok colB2 => indexAddAll um ex rest colB2 ref doc

/-- The index-Delete loop of collection.delete (src/search.go). -/
def indexDeleteAll (um : Bytes → Except String Json) (ex : Json → Except String (List Json))
    (idxs : List IndexM) (colB : Entries) (ref doc : Bytes) : Except GoErr Entries :=
  match idxs with
  | [] => .ok colB
  | i :: rest =>
    match i.Delete um ex colB ref doc with
    | .error e => .error e
    | .ok colB2 => indexDeleteAll um ex rest colB2 ref doc

/-- The per-document body of collection.add (src/search.go): all index Adds,
then the Put of the document under its reference into the document bucket
(whose handle was obtained before the loop; a non-bucket entry under the
document bucket key cannot occur after the ensure that precedes this loop). -/
def docsAddAll (c : CollectionM) (colB : Entries) (docs : List Bytes) :
    Except GoErr Entries :=
  match docs with
  | [] => .ok colB
  | doc :: rest =>
    match indexAddAll c.um c.ex c.indexList colB (c.refMake doc) doc with
    | .error e => .error e
    | .ok colB2 =>
      match entGet colB2 docBucketKey with
      | some (.bkt db) =>
        docsAddAll c (entSet colB2 docBucketKey (.bkt (entSet db (c.refMake doc) (.val doc)))) rest
      | _ => .error .incompatibleValue

/-- collection.add (src/search.go): ensure the collection bucket and the
document bucket, then run every document through the indexes and the
document Put. -/
def CollectionM.addTx (c : CollectionM) (tx : Entries) (jsonSet : List Bytes) :
    Except GoErr Entries :=
  match ensureBucket tx c.name with
  | .error e => .error e
  | .ok (tx1, colB) =>
    match ensureBucket colB docBucketKey with
    | .error e => .error e
    | .ok (colB1, _) =>
      match docsAddAll c colB1 jsonSet with
      | .error e => .error e
      | .ok colB2 => .ok (entSet tx1 c.name (.bkt colB2))

/-- collection.Add (src/search.go): the add transaction, rolled back on
error. -/
def CollectionM.Add (c : CollectionM) (db : Entries) (jsonSet : List Bytes) :
    Entries × Option GoErr :=
  match c.addTx db jsonSet with
  | .ok db2 => (db2, none)
  | .error e => (db, some e)

/-- collection.Get (src/search.go): a read transaction; a missing collection
or document bucket yields nil with no error, as does an absent key (and a
nested-bucket entry, for which bbolt Get returns nil). -/
def CollectionM.Get (c : CollectionM) (db : Entries) (key : Bytes) : Option Bytes :=
  match getBucket db c.name with
  | none => none
  | some colB =>
    match getBucket colB docBucketKey with
    | none => none
    | some docB =>
      match entGet docB key with
      | some (.val v) => some v
      | _ => none

/-- collection.delete (src/search.go): a missing collection or document
bucket is a silent no-op; otherwise delete the reference from the document
bucket (bbolt refuses to Delete a key holding a nested bucket), then run
every index Delete. -/
def CollectionM.deleteTx (c : CollectionM) (tx : Entries) (doc : Bytes) :
    Except GoErr Entries :=
  match getBucket tx c.name with
  | none => .ok tx
  | some colB =>
    match getBucket colB docBucketKey with
    | none => .ok tx
    | some docB =>
      match entGet docB (c.refMake doc) with
      | some (.bkt _) => .error .incompatibleValue
      | _ =>
        match indexDeleteAll c.um c.ex c.indexList
            (entSet colB docBucketKey (.bkt (entDel docB (c.refMake doc)))) (c.refMake doc) doc with
        | .error e => .error e
        | .ok colB2 => .ok (entSet tx c.name (.bkt colB2))

/-- collection.Delete (src/search.go): the delete transaction, rolled back on
error. -/
def CollectionM.Delete (c : CollectionM) (db : Entries) (doc : Bytes) :
    Entries × Option GoErr :=
  match c.deleteTx db doc with
  | .ok db2 => (db2, none)
  | .error e => (db, some e)

theorem indexAdd_ok_shape {um : Bytes → Except String Json}
    {ex : Json → Except String (List Json)} {idx : IndexM} {colB : Entries}
    {ref doc : Bytes} {colB2 : Entries}
    (h : IndexM.Add um ex idx colB ref doc = .ok colB2) :
    (∃ ks, idx.composedKeys um ex doc = .ok ks)
    ∧ ∃ ib2, colB2 = entSet colB idx.bucketName (.bkt ib2) := by
  cases hks : idx.composedKeys um ex doc with
  | error e => simp [IndexM.Add, hks] at h
  | ok ks =>
    refine ⟨⟨ks, rfl⟩, ?_⟩
    simp only [IndexM.Add, hks] at h
    cases hg : entGet colB idx.bucketName with
    | none =>
      simp only [hg] at h
      cases ha : addRefAtKeys [] ks ref with
      | error e => simp [ha] at h
      | ok ib2 =>
        simp only [ha] at h
        injection h with h2
        exact ⟨ib2, h2.symm⟩
    | some it =>
      cases it with
      | val v => simp [hg] at h
      | bkt ib =>
        simp only [hg] at h
        cases ha : addRefAtKeys ib ks ref with
        | error e => simp [ha] at h
        | ok ib2 =>
          simp only [ha] at h
          injection h with h2
          exact ⟨ib2, h2.symm⟩

theorem indexDelete_ok_shape {um : Bytes → Except String Json}
    {ex : Json → Except String (List Json)} {idx : IndexM} {doc : Bytes} {ks : List Bytes}
    (colB : Entries) (ref : Bytes) (hks : idx.composedKeys um ex doc = .ok ks) :
    ∃ colB2, IndexM.Delete um ex idx colB ref doc = .ok colB2
    ∧ ∀ k, k ≠ idx.bucketName → entGet colB2 k = entGet colB k := by
  simp only [IndexM.Delete, hks]
  cases hg : entGet colB idx.bucketName with
  | none => exact ⟨colB, rfl, fun k _ => rfl⟩
  | some it =>
    cases it with
    | val v => exact ⟨colB, rfl, fun k _ => rfl⟩
    | bkt ib =>
      exact ⟨_, rfl, fun k hk => entGet_entSet_other _ _ _ _ hk⟩

theorem indexAddAll_ok {um : Bytes → Except String Json}
    {ex : Json → Except String (List Json)} {idxs : List IndexM} {colB : Entries}
    {ref doc : Bytes} {colB2 : Entries}
    (h : indexAddAll um ex idxs colB ref doc = .ok colB2) :
    (∀ i ∈ idxs, ∃ ks, IndexM.composedKeys um ex i doc = .ok ks)
    ∧ (∀ k, (∀ i ∈ idxs, k ≠ IndexM.bucketName i) → entGet colB2 k = entGet colB k) := by
  induction idxs generalizing colB with
  | nil =>
    simp only [indexAddAll] at h
    injection h with h2
    subst h2
    exact ⟨by simp, fun k _ => rfl⟩
  | cons i rest ih =>
    simp only [indexAddAll] at h
    cases ha : IndexM.Add um ex i colB ref doc with
    | error e => simp [ha] at h
    | ok colBa =>
      simp only [ha] at h
      obtain ⟨hrest, hframe⟩ := ih h
      obtain ⟨⟨ks, hks⟩, ib2, hshape⟩ := indexAdd_ok_shape ha
      constructor
      · intro j hj
        rcases List.mem_cons.mp hj with hj1 | hj2
        · subst hj1
          exact ⟨ks, hks⟩
        · exact hrest j hj2
      · intro k hk
        have h1 := hframe k (fun j hj => hk j (List.mem_cons_of_mem _ hj))
        have h2 : entGet colBa k = entGet colB k := by
          subst hshape
          exact entGet_entSet_other _ _ _ _ (hk i (List.mem_cons_self _ _))
        rw [h1, h2]

theorem indexDeleteAll_ok {um : Bytes → Except String Json}
    {ex : Json → Except String (List Json)} {idxs : List IndexM} {doc : Bytes}
    (colB : Entries) (ref : Bytes)
    (hkeys : ∀ i ∈ idxs, ∃ ks, IndexM.composedKeys um ex i doc = .ok ks) :
    ∃ colB2, indexDeleteAll um ex idxs colB ref doc = .ok colB2
    ∧ ∀ k, (∀ i ∈ idxs, k ≠ IndexM.bucketName i) → entGet colB2 k = entGet colB k := by
  induction idxs generalizing colB with
  | nil => exact ⟨colB, rfl, fun k _ => rfl⟩
  | cons i rest ih =>
    obtain ⟨ks, hks⟩ := hkeys i (List.mem_cons_self _ _)
    obtain ⟨colBa, hdel, hframe1⟩ := indexDelete_ok_shape colB ref hks
    obtain ⟨colBb, hdels, hframe2⟩ :=
      ih colBa (fun j hj => hkeys j (List.mem_cons_of_mem _ hj))
    refine ⟨colBb, ?_, ?_⟩
    · simp only [indexDeleteAll, hdel, hdels]
    · intro k hk
      rw [hframe2 k (fun j hj => hk j (List.mem_cons_of_mem _ hj)),
        hframe1 k (hk i (List.mem_cons_self _ _))]

/-- C1: for every document d (ref being the collection's reference function
applied to d) on a collection whose index bucket names do not collide with
the reserved document bucket: when Add([d]) succeeds, Get(ref) returns d; the
subsequent Delete(d) returns no error, and afterwards Get(ref) returns nil
(no document). -/
theorem collection_add_get_delete (c : CollectionM) (db : Entries) (d : Bytes)
    (hnames : ∀ i ∈ c.indexList, IndexM.bucketName i ≠ docBucketKey)
    (hok : (c.Add db [d]).2 = none) :
    c.Get (c.Add db [d]).1 (c.refMake d) = some d
    ∧ (c.Delete (c.Add db [d]).1 d).2 = none
    ∧ c.Get ((c.Delete (c.Add db [d]).1 d).1) (c.refMake d) = none := by
  cases haddTx : c.addTx db [d] with
  | error e =>
    rw [CollectionM.Add] at hok
    simp [haddTx] at hok
  | ok db2 =>
    have hAdd1 : (c.Add db [d]).1 = db2 := by
      simp [CollectionM.Add, haddTx]
    cases hens1 : ensureBucket db c.name with
    | error e => simp [CollectionM.addTx, hens1] at haddTx
    | ok p1 =>
      obtain ⟨tx1, colB⟩ := p1
      cases hens2 : ensureBucket colB docBucketKey with
      | error e => simp [CollectionM.addTx, hens1, hens2] at haddTx
      | ok p2 =>
        obtain ⟨colB1, dbB⟩ := p2
        cases hdall : docsAddAll c colB1 [d] with
        | error e => simp [CollectionM.addTx, hens1, hens2, hdall] at haddTx
        | ok colB2 =>
          have hdb2 : db2 = entSet tx1 c.name (.bkt colB2) := by
            simp only [CollectionM.addTx, hens1, hens2, hdall] at haddTx
            injection haddTx with h2
            exact h2.symm
          cases hidx : indexAddAll c.um c.ex c.indexList colB1 (c.refMake d) d with
          | error e => simp [docsAddAll, hidx] at hdall
          | ok colBa =>
            cases hdg : entGet colBa docBucketKey with
            | none => simp [docsAddAll, hidx, hdg] at hdall
            | some it =>
              cases it with
              | val v => simp [docsAddAll, hidx, hdg] at hdall
              | bkt dbk =>
                have hcolB2 : colB2
                    = entSet colBa docBucketKey (.bkt (entSet dbk (c.refMake d) (.val d))) := by
                  simp only [docsAddAll, hidx, hdg] at hdall
                  injection hdall with h2
                  exact h2.symm
                have hget1 : c.Get db2 (c.refMake d) = some d := by
                  rw [CollectionM.Get, hdb2]
                  simp only [getBucket, entGet_entSet_same, hcolB2]
                have hkeys := (indexAddAll_ok hidx).1
                have hdocB2 : getBucket db2 c.name = some colB2 := by
                  rw [hdb2]
                  simp [getBucket, entGet_entSet_same]
                have hdocB3 : getBucket colB2 docBucketKey
                    = some (entSet dbk (c.refMake d) (.val d)) := by
                  rw [hcolB2]
                  simp [getBucket, entGet_entSet_same]
                have hrefVal : entGet (entSet dbk (c.refMake d) (.val d)) (c.refMake d)
                    = some (.val d) := entGet_entSet_same _ _ _
                obtain ⟨colBd, hdelall, hframe⟩ :=
                  indexDeleteAll_ok
                    (entSet colB2 docBucketKey
                      (.bkt (entDel (entSet dbk (c.refMake d) (.val d)) (c.refMake d))))
                    (c.refMake d) hkeys
                have hdelTx : c.deleteTx db2 d
                    = .ok (entSet db2 c.name (.bkt colBd)) := by
                  rw [CollectionM.deleteTx]
                  simp only [hdocB2, hdocB3, hrefVal, hdelall]
                have hDel1 : (c.Delete db2 d).1 = entSet db2 c.name (.bkt colBd) := by
                  simp [CollectionM.Delete, hdelTx]
                have hDel2 : (c.Delete db2 d).2 = none := by
                  simp [CollectionM.Delete, hdelTx]
                have hget2 : c.Get (entSet db2 c.name (.bkt colBd)) (c.refMake d) = none := by
                  rw [CollectionM.Get]
                  have hg1 : getBucket (entSet db2 c.name (.bkt colBd)) c.name = some colBd := by
                    simp [getBucket, entGet_entSet_same]
                  have hg2 : entGet colBd docBucketKey
                      = some (.bkt (entDel (entSet dbk (c.refMake d) (.val d)) (c.refMake d))) := by
                    rw [hframe docBucketKey (fun i hi => (hnames i hi).symm)]
                    exact entGet_entSet_same _ _ _
                  have hg3 : getBucket colBd docBucketKey
                      = some (entDel (entSet dbk (c.refMake d) (.val d)) (c.refMake d)) := by
                    simp [getBucket, hg2]
                  simp only [hg1, hg3, entGet_entDel_same]
                refine ⟨?_, ?_, ?_⟩
                · rw [hAdd1]
                  exact hget1
                · rw [hAdd1]
                  exact hDel2
                · rw [hAdd1, hDel1]
                  exact hget2

/-- A small concrete collection with one single-part index, used as the
witness instance. -/
def wCol1 : CollectionM :=
  { name := [99],
    indexList := [⟨"i1", [⟨⟨[]⟩, none, none⟩]⟩],
    refMake := fun d => d,
    um := fun _ => .ok .null,
    ex := fun _ => .ok [] }

/-- Witness for C1 at a concrete collection, document and database. -/
theorem collection_add_get_delete_witness :
    ((∀ i ∈ wCol1.indexList, IndexM.bucketName i ≠ docBucketKey)
      ∧ (wCol1.Add [] [[1, 2]]).2 = none)
    ∧ (wCol1.Get (wCol1.Add [] [[1, 2]]).1 (wCol1.refMake [1, 2]) = some [1, 2]
       ∧ (wCol1.Delete (wCol1.Add [] [[1, 2]]).1 [1, 2]).2 = none
       ∧ wCol1.Get ((wCol1.Delete (wCol1.Add [] [[1, 2]]).1 [1, 2]).1) (wCol1.refMake [1, 2]) = none) :=
  ⟨⟨by decide, by decide⟩,
    collection_add_get_delete wCol1 [] [1, 2] (by decide) (by decide)⟩

/-- The document value a bbolt cursor yields for an entry: the bytes of a
plain value, nil (the empty byte string) for a nested bucket. -/
def bitemDoc : BItem → Bytes
  | .val v => v
  | .bkt _ => []

/-- The back-fill loop of collection.AddIndex (src/search.go 351-356): run
the index Add over every entry of the document bucket. -/
def backfillDocs (um : Bytes → Except String Json) (ex : Json → Except String (List Json))
    (idx : IndexM) (colB : Entries) : List (Bytes × BItem) → Except GoErr Entries
  | [] => .ok colB
  | (ref, it) :: rest =>
    match IndexM.Add um ex idx colB ref (bitemDoc it) with
    | .error e => .error e
    | .ok colB2 => backfillDocs um ex idx colB2 rest

/-- The per-index transaction of collection.AddIndex (src/search.go 335-359):
ensure the collection bucket; skip the back-fill when the index's bucket
already exists; otherwise ensure the document bucket and back-fill from every
stored entry. -/
def backfillTx (c : CollectionM) (tx : Entries) (idx : IndexM) : Except GoErr Entries :=
  match ensureBucket tx c.name with
  | .error e => .error e
  | .ok (tx1, colB) =>
    match getBucket colB idx.bucketName with
    | some _ => .ok tx1
    | none =>
      match ensureBucket colB docBucketKey with
      | .error e => .error e
      | .ok (colB1, gB) =>
        match backfillDocs c.um c.ex idx colB1 gB with
        | .error e => .error e
        | .ok colB2 => .ok (entSet tx1 c.name (.bkt colB2))

/-- collection.AddIndex (src/search.go 327-367): process the given indexes in
order; an index whose name is already in the index list makes AddIndex return
nil immediately (also skipping all remaining given indexes); otherwise the
back-fill transaction runs (an error is returned, rolling that transaction
back but keeping the indexes already appended) and the index is appended to
the index list. -/
def CollectionM.AddIndex (c : CollectionM) (db : Entries) (idxs : List IndexM) :
    CollectionM × Entries × Option GoErr :=
  match idxs with
  | [] => (c, db, none)
  | idx :: rest =>
    if c.indexList.any (fun i => i.name == idx.name) then (c, db, none)
    else
      match backfillTx c db idx with
      | .error e => (c, db, some e)
      | .ok db2 => CollectionM.AddIndex { c with indexList := c.indexList ++ [idx] } db2 rest

/-- A reference is registered in an index bucket under a composed key. -/
def keyRefPresent (ib : Entries) (key ref : Bytes) : Prop :=
  ∃ rb, entGet ib key = some (.bkt rb) ∧ entGet rb ref = some (.val [])

/-- A reference is registered under a composed key in the named index bucket
of a collection bucket. -/
def keyRefPresentCol (colB : Entries) (bn key ref : Bytes) : Prop :=
  ∃ ib, entGet colB bn = some (.bkt ib) ∧ keyRefPresent ib key ref

theorem addRefAtKey_creates {b : Entries} {k ref : Bytes} {b2 : Entries}
    (h : addRefAtKey b k ref = .ok b2) : keyRefPresent b2 k ref := by
  unfold addRefAtKey at h
  cases hg : entGet b k with
  | none =>
    simp only [hg] at h
    injection h with h2
    subst h2
    exact ⟨[(ref, .val [])], entGet_entSet_same _ _ _, by simp [entGet]⟩
  | some it =>
    cases it with
    | val v => simp [hg] at h
    | bkt rb =>
      simp only [hg] at h
      injection h with h2
      subst h2
      exact ⟨entSet rb ref (.val []), entGet_entSet_same _ _ _, entGet_entSet_same _ _ _⟩

theorem addRefAtKey_preserves {b : Entries} {k ref : Bytes} {b2 : Entries}
    (h : addRefAtKey b k ref = .ok b2) {k0 r0 : Bytes}
    (hp : keyRefPresent b k0 r0) : keyRefPresent b2 k0 r0 := by
  obtain ⟨rb0, hg0, hr0⟩ := hp
  unfold addRefAtKey at h
  by_cases hk : k0 = k
  · subst hk
    rw [hg0] at h
    injection h with h2
    subst h2
    refine ⟨entSet rb0 ref (.val []), entGet_entSet_same _ _ _, ?_⟩
    by_cases hr : r0 = ref
    · subst hr
      exact entGet_entSet_same _ _ _
    · rw [entGet_entSet_other _ _ _ _ hr]
      exact hr0
  · cases hg : entGet b k with
    | none =>
      simp only [hg] at h
      injection h with h2
      subst h2
      exact ⟨rb0, by rw [entGet_entSet_other _ _ _ _ hk]; exact hg0, hr0⟩
    | some it =>
      cases it with
      | val v => simp [hg] at h
      | bkt rb =>
        simp only [hg] at h
        injection h with h2
        subst h2
        exact ⟨rb0, by rw [entGet_entSet_other _ _ _ _ hk]; exact hg0, hr0⟩

theorem addRefAtKeys_presence {keys : List Bytes} {b : Entries} {ref : Bytes} {b2 : Entries}
    (h : addRefAtKeys b keys ref = .ok b2) :
    (∀ k ∈ keys, keyRefPresent b2 k ref)
    ∧ (∀ k0 r0, keyRefPresent b k0 r0 → keyRefPresent b2 k0 r0) := by
  induction keys generalizing b with
  | nil =>
    simp only [addRefAtKeys] at h
    injection h with h2
    subst h2
    exact ⟨by simp, fun _ _ hp => hp⟩
  | cons k rest ih =>
    simp only [addRefAtKeys] at h
    cases ha : addRefAtKey b k ref with
    | error e => simp [ha] at h
    | ok bmid =>
      simp only [ha] at h
      obtain ⟨hall, hpres⟩ := ih h
      constructor
      · intro k2 hk2
        rcases List.mem_cons.mp hk2 with hk2 | hk2
        · subst hk2
          exact hpres _ _ (addRefAtKey_creates ha)
        · exact hall k2 hk2
      · intro k0 r0 hp
        exact hpres _ _ (addRefAtKey_preserves ha hp)

theorem indexAdd_presence {um : Bytes → Except String Json}
    {ex : Json → Except String (List Json)} {idx : IndexM} {colB : Entries}
    {ref doc : Bytes} {colB2 : Entries} {ks : List Bytes}
    (h : IndexM.Add um ex idx colB ref doc = .ok colB2)
    (hks : idx.composedKeys um ex doc = .ok ks) :
    (∀ k ∈ ks, keyRefPresentCol colB2 idx.bucketName k ref)
    ∧ (∀ k0 r0, keyRefPresentCol colB idx.bucketName k0 r0 →
        keyRefPresentCol colB2 idx.bucketName k0 r0) := by
  simp only [IndexM.Add, hks] at h
  cases hg : entGet colB idx.bucketName with
  | none =>
    simp only [hg] at h
    cases ha : addRefAtKeys [] ks ref with
    | error e => simp [ha] at h
    | ok ib2 =>
      simp only [ha] at h
      injection h with h2
      subst h2
      obtain ⟨hall, _⟩ := addRefAtKeys_presence ha
      refine ⟨fun k hk => ⟨ib2, entGet_entSet_same _ _ _, hall k hk⟩, ?_⟩
      rintro k0 r0 ⟨ib0, hib0, -⟩
      rw [hg] at hib0
      cases hib0
  | some it =>
    cases it with
    | val v => simp [hg] at h
    | bkt ib =>
      simp only [hg] at h
      cases ha : addRefAtKeys ib ks ref with
      | error e => simp [ha] at h
      | ok ib2 =>
        simp only [ha] at h
        injection h with h2
        subst h2
        obtain ⟨hall, hpres⟩ := addRefAtKeys_presence ha
        refine ⟨fun k hk => ⟨ib2, entGet_entSet_same _ _ _, hall k hk⟩, ?_⟩
        rintro k0 r0 ⟨ib0, hib0, hkr⟩
        rw [hg] at hib0
        injection hib0 with hib0
        injection hib0 with hib0
        subst hib0
        exact ⟨ib2, entGet_entSet_same _ _ _, hpres _ _ hkr⟩

theorem backfillDocs_preserves {um : Bytes → Except String Json}
    {ex : Json → Except String (List Json)} {idx : IndexM}
    {ds : List (Bytes × BItem)} {colB : Entries} {colB2 : Entries}
    (h : backfillDocs um ex idx colB ds = .ok colB2) :
    ∀ k0 r0, keyRefPresentCol colB idx.bucketName k0 r0 →
      keyRefPresentCol colB2 idx.bucketName k0 r0 := by
  induction ds generalizing colB with
  | nil =>
    simp only [backfillDocs] at h
    injection h with h2
    subst h2
    exact fun _ _ hp => hp
  | cons e rest ih =>
    obtain ⟨ref, it⟩ := e
    simp only [backfillDocs] at h
    cases ha : IndexM.Add um ex idx colB ref (bitemDoc it) with
    | error e2 => simp [ha] at h
    | ok colBmid =>
      simp only [ha] at h
      intro k0 r0 hp
      obtain ⟨⟨ks2, hks2⟩, -⟩ := indexAdd_ok_shape ha
      exact ih h _ _ ((indexAdd_presence ha hks2).2 _ _ hp)

theorem backfillDocs_presence {um : Bytes → Except String Json}
    {ex : Json → Except String (List Json)} {idx : IndexM}
    {ds : List (Bytes × BItem)} {colB : Entries} {colB2 : Entries}
    (h : backfillDocs um ex idx colB ds = .ok colB2) :
    ∀ pr ∈ ds, ∀ ks, IndexM.composedKeys um ex idx (bitemDoc pr.2) = .ok ks →
      ∀ k ∈ ks, keyRefPresentCol colB2 idx.bucketName k pr.1 := by
  induction ds generalizing colB with
  | nil =>
    intro pr hpr
    simp at hpr
  | cons e rest ih =>
    obtain ⟨ref, it⟩ := e
    simp only [backfillDocs] at h
    cases ha : IndexM.Add um ex idx colB ref (bitemDoc it) with
    | error e2 => simp [ha] at h
    | ok colBmid =>
      simp only [ha] at h
      intro pr hpr ks hks k hk
      rcases List.mem_cons.mp hpr with hpr1 | hpr2
      · subst hpr1
        exact backfillDocs_preserves h _ _ ((indexAdd_presence ha hks).1 k hk)
      · exact ih h pr hpr2 ks hks k hk

/-- Concrete indexes and a collection for the AddIndex counterexample. -/
def wIdxA : IndexM := ⟨"a", []⟩

def wIdxB : IndexM := ⟨"b", []⟩

def wColA : CollectionM :=
  { name := [99], indexList := [wIdxA], refMake := fun d => d,
    um := fun _ => .ok .null, ex := fun _ => .ok [] }

/-- C9 counterexample: on a collection already holding an index named "a",
AddIndex(iA, iB) returns nil immediately; the index named "b" is not in the
collection's index list, yet it is not added (the claim says every given
index with a fresh name is added). -/
theorem addIndex_skips_rest_cex :
    (wColA.AddIndex [] [wIdxA, wIdxB]).2.2 = none
    ∧ (wColA.AddIndex [] [wIdxA, wIdxB]).1.indexList.map IndexM.name = ["a"]
    ∧ (∀ i ∈ wColA.indexList, IndexM.name i ≠ "b") := by
  refine ⟨rfl, rfl, by decide⟩

/-- C9 amended: AddIndex handles the given indexes in order. (i) On reaching
an index whose name is already in the index list it returns nil immediately,
leaving the collection and the stored buckets untouched and skipping the
remaining given indexes. (ii) A fresh-named index whose back-fill transaction
succeeds is appended to the index list with no error. (iii) When the
collection bucket exists and already stores a bucket under the index's bucket
name, the back-fill transaction leaves the database unchanged (no re-fill).
(iv) A successful back-fill registers, for every entry of the document bucket
and every composed key of its document, the entry's reference under that key
in the index's bucket. -/
theorem addIndex_semantics :
    (∀ (c : CollectionM) (db : Entries) (idx : IndexM) (rest : List IndexM),
        c.indexList.any (fun i => i.name == idx.name) = true →
        CollectionM.AddIndex c db (idx :: rest) = (c, db, none))
    ∧ (∀ (c : CollectionM) (db : Entries) (idx : IndexM),
        c.indexList.any (fun i => i.name == idx.name) = false →
        ∀ db2, backfillTx c db idx = .ok db2 →
          CollectionM.AddIndex c db [idx]
            = ({ c with indexList := c.indexList ++ [idx] }, db2, none))
    ∧ (∀ (c : CollectionM) (db : Entries) (idx : IndexM) (colB : Entries),
        getBucket db c.name = some colB →
        (∃ ib, getBucket colB idx.bucketName = some ib) →
        backfillTx c db idx = .ok db)
    ∧ (∀ (um : Bytes → Except String Json) (ex : Json → Except String (List Json))
        (idx : IndexM) (colB : Entries) (ds : List (Bytes × BItem)) (colB2 : Entries),
        backfillDocs um ex idx colB ds = .ok colB2 →
        ∀ pr ∈ ds, ∀ ks, IndexM.composedKeys um ex idx (bitemDoc pr.2) = .ok ks →
          ∀ k ∈ ks, keyRefPresentCol colB2 idx.bucketName k pr.1) := by
  refine ⟨?_, ?_, ?_, ?_⟩
  · intro c db idx rest hdup
    simp [CollectionM.AddIndex, hdup]
  · intro c db idx hfresh db2 hbf
    simp [CollectionM.AddIndex, hfresh, hbf]
  · intro c db idx colB hcb hib
    obtain ⟨ib, hib⟩ := hib
    have hens : ensureBucket db c.name = .ok (db, colB) := by
      unfold getBucket at hcb
      unfold ensureBucket
      cases hg : entGet db c.name with
      | none => simp [hg] at hcb
      | some it =>
        cases it with
        | val v => simp [hg] at hcb
        | bkt b =>
          simp only [hg] at hcb ⊢
          injection hcb with hcb
          subst hcb
          rfl
    rw [backfillTx, hens]
    simp only [hib]
  · intro um ex idx colB ds colB2 h
    exact backfillDocs_presence h

/-- Witness for C9's amended theorem: the early return at a duplicate name,
a successful fresh append, and a concrete back-fill registration. -/
theorem addIndex_semantics_witness :
    (CollectionM.AddIndex wColA [] [wIdxA, wIdxB] = (wColA, [], none))
    ∧ (CollectionM.AddIndex { wColA with indexList := [] } [] [wIdxB]
        = ({ wColA with indexList := [wIdxB] },
           [([99], .bkt [([95, 100, 111, 99, 117, 109, 101, 110, 116, 115], .bkt [])])], none))
    ∧ keyRefPresentCol [([98], BItem.bkt [([], BItem.bkt [([7], BItem.val [])])])]
        (IndexM.bucketName wIdxB) [] [7] :=
  ⟨addIndex_semantics.1 wColA [] wIdxA [wIdxB] (by decide),
   addIndex_semantics.2.1 { wColA with indexList := [] } [] wIdxB (by decide) _ (by rfl),
   addIndex_semantics.2.2.2 (fun _ => .ok .null) (fun _ => .ok []) wIdxB []
     [([7], BItem.val [1])] _ (by rfl) ([7], BItem.val [1]) (by simp) [[]]
     (by rfl) [] (by simp)⟩

/-- QueryPart (src/search.go): one of the three variants. -/
inductive QueryPartM where
  | eqQ (p : eqPart)
  | rangeQ (p : rangePart)
  | pfxQ (p : pfxPart)

/-- The TermPath of a query part (the IRIComparable implementations in
src/search.go). -/
def QueryPartM.termPathQ : QueryPartM → TermPath
  | .eqQ p => p.termPath
  | .rangeQ p => p.termPath
  | .pfxQ p => p.termPath

/-- query (src/search.go 80-91): an ordered list of parts conjoined by AND. -/
structure QueryM where
  parts : List QueryPartM

/-- Modelled from the spec (4.5): the number of leading index parts whose
term paths appear anywhere in the query. -/
def leadingMatches (parts : List FieldIndexerM) (q : QueryM) : Nat :=
  match parts with
  | [] => 0
  | p :: rest =>
    if q.parts.any (fun qp => qp.termPathQ.equalsTP p.termPath) then
      1 + leadingMatches rest q
    else 0

/-- Modelled from the spec (4.5): IsMatch = m / n with m the leading-part
count, 0 when no leading part matches; Go's float64 score is modelled as a
rational. -/
def IndexM.IsMatch (i : IndexM) (q : QueryM) : ℚ :=
  let m := leadingMatches i.indexParts q
  if m = 0 then 0 else (m : ℚ) / (i.indexParts.length : ℚ)

/-- The loop of collection.findIndex (src/search.go 548-566): keep the first
index whose score strictly exceeds the best seen, starting from nil and 0. -/
def findIndexLoop (q : QueryM) : List IndexM → Option IndexM → ℚ → Option IndexM
  | [], cIndex, _ => cIndex
  | i :: rest, cIndex, cMatch =>
    if cMatch < i.IsMatch q then findIndexLoop q rest (some i) (i.IsMatch q)
    else findIndexLoop q rest cIndex cMatch

/-- collection.findIndex (src/search.go 548-566): nil for a nil query,
otherwise the loop over the index list. -/
def CollectionM.findIndexQ (c : CollectionM) (q : Option QueryM) : Option IndexM :=
  match q with
  | none => none
  | some q => findIndexLoop q c.indexList none 0

/-- The three query plans.  Their executors are not part of the sources; the
claims about the planner concern which plan is selected and which error is
returned. -/
inductive QueryPlanM where
  | fullTableScan (q : Option QueryM)
  | resultScan (i : IndexM) (q : Option QueryM)
  | indexScan (i : IndexM) (q : Option QueryM)

/-- collection.queryPlan (src/search.go 520-543): ErrNoQuery for a nil query;
a full-table-scan plan when findIndex yields nothing; otherwise a result-scan
plan with the found index. -/
def CollectionM.queryPlan (c : CollectionM) (q : Option QueryM) :
    Except GoErr QueryPlanM :=
  match q with
  | none => .error .noQuery
  | some q2 =>
    match c.findIndexQ (some q2) with
    | none => .ok (.fullTableScan (some q2))
    | some i => .ok (.resultScan i (some q2))

/-- collection.IndexIterate's plan selection (src/search.go 467-482):
ErrNoIndex when findIndex yields nothing (also for a nil query, which
findIndex maps to nil); otherwise an index-scan plan. -/
def CollectionM.indexIteratePlan (c : CollectionM) (q : Option QueryM) :
    Except GoErr QueryPlanM :=
  match c.findIndexQ q with
  | none => .error .noIndex
  | some i => .ok (.indexScan i q)

theorem findIndexLoop_stays {q : QueryM} {l : List IndexM} {acc : Option IndexM} {cm : ℚ}
    (h : ∀ i ∈ l, IndexM.IsMatch i q ≤ cm) : findIndexLoop q l acc cm = acc := by
  induction l with
  | nil => rfl
  | cons i rest ih =>
    have hle := h i (List.mem_cons_self _ _)
    rw [findIndexLoop, if_neg (by exact not_lt.mpr hle)]
    exact ih (fun j hj => h j (List.mem_cons_of_mem _ hj))

theorem findIndexLoop_finds {q : QueryM} {l : List IndexM} :
    ∀ (acc : Option IndexM) (cm : ℚ), (∃ i ∈ l, cm < IndexM.IsMatch i q) →
    ∃ ib, findIndexLoop q l acc cm = some ib ∧ ib ∈ l ∧ cm < IndexM.IsMatch ib q
      ∧ ∀ j ∈ l, IndexM.IsMatch j q ≤ IndexM.IsMatch ib q := by
  induction l with
  | nil =>
    rintro acc cm ⟨i, hi, -⟩
    simp at hi
  | cons i rest ih =>
    rintro acc cm ⟨w, hw, hwlt⟩
    by_cases hhead : cm < IndexM.IsMatch i q
    · rw [findIndexLoop, if_pos hhead]
      by_cases hrest : ∃ j ∈ rest, IndexM.IsMatch i q < IndexM.IsMatch j q
      · obtain ⟨ib, hres, hmem, hlt, hmax⟩ := ih (some i) (IndexM.IsMatch i q) hrest
        refine ⟨ib, hres, List.mem_cons_of_mem _ hmem, lt_trans hhead hlt, ?_⟩
        intro j hj
        rcases List.mem_cons.mp hj with hj1 | hj2
        · subst hj1
          exact le_of_lt hlt
        · exact hmax j hj2
      · push_neg at hrest
        rw [findIndexLoop_stays hrest]
        refine ⟨i, rfl, List.mem_cons_self _ _, hhead, ?_⟩
        intro j hj
        rcases List.mem_cons.mp hj with hj1 | hj2
        · subst hj1
          exact le_refl _
        · exact hrest j hj2
    · rw [findIndexLoop, if_neg hhead]
      have hwrest : w ∈ rest := by
        rcases List.mem_cons.mp hw with hw1 | hw2
        · subst hw1
          exact absurd hwlt hhead
        · exact hw2
      obtain ⟨ib, hres, hmem, hlt, hmax⟩ := ih acc cm ⟨w, hwrest, hwlt⟩
      refine ⟨ib, hres, List.mem_cons_of_mem _ hmem, hlt, ?_⟩
      intro j hj
      rcases List.mem_cons.mp hj with hj1 | hj2
      · subst hj1
        exact le_trans (not_lt.mp hhead) (le_of_lt hlt)
      · exact hmax j hj2

/-- C4: for every non-nil query, IndexIterate's planning returns ErrNoIndex
exactly when no index of the collection has a match score above 0, and
otherwise selects an index scan with a highest-scoring index; Find and
Iterate plan through queryPlan, which never returns ErrNoIndex: it selects a
result scan with that same highest-scoring index when some score is positive
and falls back to a full-table scan otherwise; a nil query yields ErrNoQuery. -/
theorem planner_semantics (c : CollectionM) (q : QueryM) :
    (c.indexIteratePlan (some q) = .error .noIndex ↔
      ∀ i ∈ c.indexList, IndexM.IsMatch i q ≤ 0)
    ∧ ((∃ i ∈ c.indexList, 0 < IndexM.IsMatch i q) →
        ∃ ib, c.findIndexQ (some q) = some ib ∧ ib ∈ c.indexList
          ∧ 0 < IndexM.IsMatch ib q
          ∧ (∀ j ∈ c.indexList, IndexM.IsMatch j q ≤ IndexM.IsMatch ib q)
          ∧ c.indexIteratePlan (some q) = .ok (.indexScan ib (some q))
          ∧ c.queryPlan (some q) = .ok (.resultScan ib (some q)))
    ∧ ((∀ i ∈ c.indexList, IndexM.IsMatch i q ≤ 0) →
        c.queryPlan (some q) = .ok (.fullTableScan (some q)))
    ∧ c.queryPlan none = .error .noQuery
    ∧ (∀ qopt, c.queryPlan qopt ≠ .error .noIndex) := by
  have hcases : (∀ i ∈ c.indexList, IndexM.IsMatch i q ≤ 0)
      ∨ (∃ i ∈ c.indexList, 0 < IndexM.IsMatch i q) := by
    by_cases h : ∃ i ∈ c.indexList, 0 < IndexM.IsMatch i q
    · exact Or.inr h
    · push_neg at h
      exact Or.inl h
  refine ⟨?_, ?_, ?_, rfl, ?_⟩
  · constructor
    · intro herr
      rcases hcases with hneg | hpos
      · exact hneg
      · obtain ⟨ib, hres, -⟩ := findIndexLoop_finds none 0 hpos
        rw [CollectionM.indexIteratePlan] at herr
        simp only [CollectionM.findIndexQ, hres] at herr
        cases herr
    · intro hneg
      rw [CollectionM.indexIteratePlan]
      simp only [CollectionM.findIndexQ, findIndexLoop_stays hneg]
  · intro hpos
    obtain ⟨ib, hres, hmem, hlt, hmax⟩ := findIndexLoop_finds none 0 hpos
    refine ⟨ib, ?_, hmem, hlt, hmax, ?_, ?_⟩
    · simp only [CollectionM.findIndexQ, hres]
    · rw [CollectionM.indexIteratePlan]
      simp only [CollectionM.findIndexQ, hres]
    · rw [CollectionM.queryPlan]
      simp only [CollectionM.findIndexQ, hres]
  · intro hneg
    rw [CollectionM.queryPlan]
    simp only [CollectionM.findIndexQ, findIndexLoop_stays hneg]
  · intro qopt
    cases qopt with
    | none => simp [CollectionM.queryPlan]
    | some q2 =>
      rw [CollectionM.queryPlan]
      cases hres : c.findIndexQ (some q2) with
      | none => simp [hres]
      | some i => simp [hres]

/-- Witness for C4 at a concrete collection: one index on a one-part term
path, one matching one-part query. -/
theorem planner_semantics_witness :
    (CollectionM.indexIteratePlan wCol1 (some ⟨[]⟩) = .error .noIndex
      ↔ ∀ i ∈ wCol1.indexList, IndexM.IsMatch i ⟨[]⟩ ≤ 0)
    ∧ CollectionM.queryPlan wCol1 none = .error .noQuery
    ∧ (∀ i ∈ wCol1.indexList, IndexM.IsMatch i ⟨[]⟩ ≤ 0)
    ∧ CollectionM.queryPlan wCol1 (some ⟨[]⟩) = .ok (.fullTableScan (some ⟨[]⟩)) := by
  have h := planner_semantics wCol1 ⟨[]⟩
  have hneg : ∀ i ∈ wCol1.indexList, IndexM.IsMatch i ⟨[]⟩ ≤ 0 := by
    intro i hi
    rcases List.mem_singleton.mp hi with rfl
    simp [IndexM.IsMatch, wCol1, leadingMatches]
  exact ⟨h.1, h.2.2.2.1, hneg, h.2.2.1 hneg⟩

/-- collection.Find's walker loop (src/search.go 435-452) over the emitted
stream: the walker checks the cancellation handle before each append and
returns its error, which aborts iteration; Find then returns (nil, err),
discarding the documents collected so far.  A handle that is already
cancelled (or past its deadline) reports the same error at every check, so
the handle is a constant. -/
def findCollect (ctxErr : Option GoErr) (docs : List Bytes) :
    List (Bytes × Bytes) → Except GoErr (List Bytes)
  | [] => .ok docs
  | (_, v) :: rest =>
    match ctxErr with
    | some e => .error e
    | none => findCollect ctxErr (docs ++ [v]) rest

/-- collection.Find (src/search.go 435-452) against a spec-modelled executor:
the plan is chosen by queryPlan; `emit` stands for the (reference, document)
pairs the chosen plan's executor streams to the walker in order (per spec
4.7/4.8; empty when nothing matches), and walker errors abort the iteration
and propagate verbatim (spec 7). -/
def CollectionM.FindModel (c : CollectionM) (ctxErr : Option GoErr)
    (q : Option QueryM) (emit : QueryPlanM → List (Bytes × Bytes)) :
    Except GoErr (List Bytes) :=
  match c.queryPlan q with
  | .error e => .error e
  | .ok plan => findCollect ctxErr [] (emit plan)

/-- C5 counterexample: a Find whose plan emits nothing (an empty collection)
returns ok with an empty result even though the cancellation handle is
already cancelled: the claimed cancellation error is not returned. -/
theorem find_cancelled_empty_cex :
    CollectionM.FindModel wCol1 (some .canceled) (some ⟨[]⟩) (fun _ => []) = .ok []
    ∧ ((Except.ok [] : Except GoErr (List Bytes)) ≠ .error .canceled) := by
  exact ⟨rfl, by simp⟩

/-- C5 amended: with an already-cancelled (or deadline-exceeded) handle and a
query accepted by the planner, Find returns the handle's error verbatim with
no partial result whenever the chosen plan emits at least one document; when
the plan emits nothing, Find returns an empty result and no error. -/
theorem find_cancelled_semantics (c : CollectionM) (e : GoErr) (q : QueryM)
    (emit : QueryPlanM → List (Bytes × Bytes)) (plan : QueryPlanM)
    (hplan : c.queryPlan (some q) = .ok plan) :
    (emit plan ≠ [] → c.FindModel (some e) (some q) emit = .error e)
    ∧ (emit plan = [] → c.FindModel (some e) (some q) emit = .ok []) := by
  constructor
  · intro hne
    rw [CollectionM.FindModel]
    simp only [hplan]
    cases hstream : emit plan with
    | nil => exact absurd hstream hne
    | cons x rest =>
      obtain ⟨r, v⟩ := x
      rfl
  · intro hempty
    rw [CollectionM.FindModel]
    simp only [hplan, hempty]
    rfl

/-- Witness for C5's amended theorem: a one-document emission returns the
cancellation error; an empty emission returns ok. -/
theorem find_cancelled_semantics_witness :
    CollectionM.FindModel wCol1 (some .canceled) (some ⟨[]⟩) (fun _ => [([1], [2])])
      = .error .canceled
    ∧ CollectionM.FindModel wCol1 (some .canceled) (some ⟨[]⟩) (fun _ => []) = .ok [] :=
  ⟨(find_cancelled_semantics wCol1 .canceled ⟨[]⟩ (fun _ => [([1], [2])]) _ rfl).1 (by simp),
   (find_cancelled_semantics wCol1 .canceled ⟨[]⟩ (fun _ => []) _ rfl).2 rfl⟩

/-- A Go backing array of query parts with its capacity; entries past the
written data are unobservable and not stored. -/
structure HArr where
  cap : Nat
  data : List QueryPartM

/-- The heap of backing arrays; a slice header refers to one by index. -/
abbrev Heap := List HArr

/-- A Go slice header for query.parts: backing array id and length (these
slices are never re-sliced, so the offset is always zero and omitted). -/
structure QSlice where
  arr : Nat
  len : Nat

/-- Parts() (src/search.go 89-91): the view of the first len elements of the
backing array. -/
def partsOf (h : Heap) (q : QSlice) : List QueryPartM :=
  ((h[q.arr]?).getD ⟨0, []⟩).data.take q.len

/-- A well-formed slice header: it points at an array of the heap, within the
written data, which is within capacity. -/
def wfSlice (h : Heap) (q : QSlice) : Prop :=
  ∃ a, h[q.arr]? = some a ∧ q.len ≤ a.data.length ∧ a.data.length ≤ a.cap

/-- Go append of one query part (the semantics of `append` used by query.And,
with the runtime's growth policy abstracted as any `grow`): with spare
capacity the element is written in place at index len of the shared backing
array; otherwise a fresh, larger array is allocated. -/
def goAppend (grow : Nat → Nat) (h : Heap) (q : QSlice) (p : QueryPartM) :
    Heap × QSlice :=
  match h[q.arr]? with
  | none => (h, q)
  | some a =>
    if q.len < a.cap then
      (h.set q.arr ⟨a.cap, a.data.take q.len ++ [p] ++ a.data.drop (q.len + 1)⟩,
       ⟨q.arr, q.len + 1⟩)
    else
      (h ++ [⟨grow (q.len + 1), a.data.take q.len ++ [p]⟩], ⟨h.length, q.len + 1⟩)

/-- query.And (src/search.go 84-87): the value receiver is a copy of the
query struct; its parts slice is extended by Go append and the copy is
returned, the caller's query header staying as it was. -/
def queryAnd (grow : Nat → Nat) (h : Heap) (q : QSlice) (p : QueryPartM) :
    Heap × QSlice :=
  goAppend grow h q p

/-- New (src/search.go 48-52): a fresh one-element backing array holding the
initial part. -/
def queryNew (h : Heap) (p : QueryPartM) : Heap × QSlice :=
  (h ++ [⟨1, [p]⟩], ⟨h.length, 1⟩)

/-- C10: for every well-formed query value q and part p, q.And(p) returns a
query whose Parts() are q.Parts() followed by p, and the Parts() observed on
the original query q are unchanged by the call — in the in-place branch the
write lands at index len, outside q's view, and in the reallocating branch q
still reads its old array. -/
theorem query_and_parts (grow : Nat → Nat) (h : Heap) (q : QSlice) (p : QueryPartM)
    (hwf : wfSlice h q) :
    partsOf (queryAnd grow h q p).1 (queryAnd grow h q p).2 = partsOf h q ++ [p]
    ∧ partsOf (queryAnd grow h q p).1 q = partsOf h q := by
  obtain ⟨a, ha, hlen, hcap⟩ := hwf
  have harr : q.arr < h.length := by
    by_contra hge
    rw [List.getElem?_eq_none (by omega)] at ha
    cases ha
  rw [queryAnd, goAppend, ha]
  simp only []
  by_cases hsp : q.len < a.cap
  · rw [if_pos hsp]
    have hset : ((h.set q.arr ⟨a.cap, a.data.take q.len ++ [p] ++ a.data.drop (q.len + 1)⟩)[q.arr]?)
        = some ⟨a.cap, a.data.take q.len ++ [p] ++ a.data.drop (q.len + 1)⟩ := by
      rw [List.getElem?_set_self harr]
    have htk : (a.data.take q.len).length = q.len := by
      rw [List.length_take]
      omega
    constructor
    · simp only [partsOf, hset, Option.getD_some, ha]
      rw [List.append_assoc, List.take_append_eq_append_take, htk,
        List.take_of_length_le (by rw [htk]; omega)]
      simp
    · simp only [partsOf, hset, Option.getD_some, ha]
      rw [List.append_assoc, List.take_append_eq_append_take, htk]
      simp [List.take_take]
  · rw [if_neg hsp]
    constructor
    · have hget : ((h ++ [⟨grow (q.len + 1), a.data.take q.len ++ [p]⟩])[h.length]?)
        = some ⟨grow (q.len + 1), a.data.take q.len ++ [p]⟩ := by
        rw [List.getElem?_append_right (le_refl _)]
        simp
      have hlen2 : (a.data.take q.len ++ [p]).length ≤ q.len + 1 := by
        simp [List.length_take]
      simp only [partsOf, hget, Option.getD_some, ha]
      rw [List.take_of_length_le hlen2]
    · have hget : ((h ++ [⟨grow (q.len + 1), a.data.take q.len ++ [p]⟩])[q.arr]?) = h[q.arr]? := by
        rw [List.getElem?_append_left harr]
      simp only [partsOf, hget]

/-- Witness for C10: a query built by New, extended twice. -/
theorem query_and_parts_witness :
    (wfSlice [⟨1, [QueryPartM.eqQ ⟨⟨["t"]⟩, .str "v"⟩]⟩] ⟨0, 1⟩)
    ∧ (partsOf (queryAnd (fun n => n) [⟨1, [QueryPartM.eqQ ⟨⟨["t"]⟩, .str "v"⟩]⟩]
          ⟨0, 1⟩ (QueryPartM.eqQ ⟨⟨["u"]⟩, .str "w"⟩)).1
        (queryAnd (fun n => n) [⟨1, [QueryPartM.eqQ ⟨⟨["t"]⟩, .str "v"⟩]⟩]
          ⟨0, 1⟩ (QueryPartM.eqQ ⟨⟨["u"]⟩, .str "w"⟩)).2
        = partsOf [⟨1, [QueryPartM.eqQ ⟨⟨["t"]⟩, .str "v"⟩]⟩] ⟨0, 1⟩
          ++ [QueryPartM.eqQ ⟨⟨["u"]⟩, .str "w"⟩]
       ∧ partsOf (queryAnd (fun n => n) [⟨1, [QueryPartM.eqQ ⟨⟨["t"]⟩, .str "v"⟩]⟩]
          ⟨0, 1⟩ (QueryPartM.eqQ ⟨⟨["u"]⟩, .str "w"⟩)).1 ⟨0, 1⟩
        = partsOf [⟨1, [QueryPartM.eqQ ⟨⟨["t"]⟩, .str "v"⟩]⟩] ⟨0, 1⟩) :=
  ⟨⟨⟨1, [QueryPartM.eqQ ⟨⟨["t"]⟩, .str "v"⟩]⟩, rfl, by simp, by simp⟩,
   query_and_parts (fun n => n) [⟨1, [QueryPartM.eqQ ⟨⟨["t"]⟩, .str "v"⟩]⟩] ⟨0, 1⟩
     (QueryPartM.eqQ ⟨⟨["u"]⟩, .str "w"⟩)
     ⟨⟨1, [QueryPartM.eqQ ⟨⟨["t"]⟩, .str "v"⟩]⟩, rfl, by simp, by simp⟩⟩

end Goauld
